import Mathlib

/-!
Verification development for the lance execution/PQ core.

Shallow embedding of:
- `rust/lance-index/src/vector/pq/utils.rs` (`divide_to_subvectors`,
  `num_centroids`, `get_sub_vector_centroids`)
- `rust/lance-datafusion/src/exec.rs` (`OneShotExec`, `LanceExecutionOptions`,
  `get_session_context`, `visit_node`, `analyze_plan`)

Machine integers (`usize`) are modelled as `Nat`; the sizes involved stay far
below `2^64` in every claim considered, and the source performs no wrapping
arithmetic. Fallible Rust code returns `Except`/explicit result types; Rust
panics (`%` by zero, `slice::chunks(0)`) are modelled as an explicit `panic`
outcome so that the embedding stays total.
-/

set_option autoImplicit false

universe u v

/-! ## PQ utils (`rust/lance-index/src/vector/pq/utils.rs`) -/

/-- Arrow `FixedSizeListArray`: a flat buffer of primitive values in which each
logical vector occupies `value_length` consecutive slots. `values` models
`fsl.values().as_primitive::<T>().values()` and `value_length` models
`fsl.value_length()`. -/
structure FixedSizeListArray (α : Type u) where
  values : List α
  value_length : Nat

/-- `fsl.len()`: the number of vectors stored in the array. -/
def FixedSizeListArray.len {α : Type u} (fsl : FixedSizeListArray α) : Nat :=
  fsl.values.length / fsl.value_length

/-- Rust `slice::chunks(n)`: consecutive chunks of length `n`, the last chunk
possibly shorter. Rust panics when `n = 0`; the `0` case here is unreachable
because `divide_to_subvectors` returns `panic` before calling `chunks 0`. -/
def chunks {α : Type u} : Nat → List α → List (List α)
  | _, [] => []
  | 0, _ :: _ => []
  | n + 1, a :: as => (a :: as).take (n + 1) :: chunks (n + 1) ((a :: as).drop (n + 1))
termination_by _ l => l.length
decreasing_by simp [List.length_drop]; omega

/-- Outcome of `divide_to_subvectors`: the Rust function may panic (remainder
by zero when `m = 0`, or `slice::chunks(0)` when the dimension is `0`), return
`Err(Error::InvalidInput)` with a message, or return `Ok` with the buffers. -/
inductive DivideResult (α : Type u) where
  | panic : DivideResult α
  | invalid_input : String → DivideResult α
  | ok : List (List α) → DivideResult α
deriving DecidableEq

/-- `divide_to_subvectors(fsl, m)` from `vector/pq/utils.rs`. The `Ok` branch
mirrors the source loop: for each `dim`-sized chunk of the flat values, buffer
`i` is extended with the chunk's slice `[i * sub_vector_length ..
(i + 1) * sub_vector_length]`. Rust slicing `&v[a..b]` is modelled as
`(v.drop a).take (b - a)`; the arrow invariant guarantees
`values.length = len * value_length`, under which no slice is out of range. -/
def divide_to_subvectors {α : Type u} (fsl : FixedSizeListArray α) (m : Nat) :
    DivideResult α :=
  let dim := fsl.value_length
  if m = 0 then .panic
  else if dim % m ≠ 0 then
    .invalid_input ("num_sub_vectors must divide vector dimension " ++
      toString dim ++ ", but got " ++ toString m)
  else if dim = 0 then .panic
  else
    let sub_vector_length := dim / m
    .ok ((chunks dim fsl.values).foldl
      (fun subarrays vec =>
        subarrays.mapIdx (fun i subarray =>
          subarray ++
            ((vec.drop (i * sub_vector_length)).take
              ((i + 1) * sub_vector_length - i * sub_vector_length))))
      (List.replicate m []))

/-- `num_centroids(num_bits)`: number of PQ centroids for the given number of
PQ bits. -/
def num_centroids (num_bits : Nat) : Nat := 2 ^ num_bits

/-- `get_sub_vector_centroids::<NUM_BITS>(codebook, dimension,
num_sub_vectors, sub_vector_idx)`. The Rust body recomputes
`2_usize.pow(NUM_BITS)` locally; the `debug_assert!` on
`sub_vector_idx < num_sub_vectors` is debug-only and not part of the release
semantics. Rust slicing `&codebook[a..b]` is modelled as
`(codebook.drop a).take (b - a)`. -/
def get_sub_vector_centroids {α : Type u} (num_bits : Nat) (codebook : List α)
    (dimension : Nat) (num_sub_vectors : Nat) (sub_vector_idx : Nat) : List α :=
  let nc := 2 ^ num_bits
  let sub_vector_width := dimension / num_sub_vectors
  (codebook.drop (sub_vector_idx * nc * sub_vector_width)).take
    ((sub_vector_idx + 1) * nc * sub_vector_width -
      sub_vector_idx * nc * sub_vector_width)

/-! ## Execution plan utilities (`rust/lance-datafusion/src/exec.rs`) -/

/-- `OneShotExec`: a source execution node holding a finite record-batch
stream (modelled as a list of batches of an abstract type `β`) behind a
mutex-guarded `Option` slot. The cached `PlanProperties` declare
`Partitioning::RoundRobinBatch(1)`, recorded here as `partition_count = 1`.
Lock poisoning (a panic on another thread while the mutex was held) is a
concurrency failure outside this sequential embedding. -/
structure OneShotExec (β : Type u) where
  stream : Option (List β)
  partition_count : Nat

/-- `OneShotExec::new(stream)`: slot filled, single-partition properties. -/
def OneShotExec.new {β : Type u} (stream : List β) : OneShotExec β :=
  { stream := some stream, partition_count := 1 }

/-- `OneShotExec::execute(&self, _partition, _context)`: `take()` the stream
out of the slot; return it if it was present, otherwise the
`DataFusionError::Execution` error. The partition argument is ignored by the
source (bound as `_partition`). The updated node state is returned alongside
the result to make the interior mutability explicit. -/
def OneShotExec.execute {β : Type u} (node : OneShotExec β) (_partition : Nat) :
    Except String (List β) × OneShotExec β :=
  match node.stream with
  | some s => (Except.ok s, { node with stream := none })
  | none => (Except.error "OneShotExec has already been executed", node)

/-- Process environment as read by `LanceExecutionOptions`:
`lance_mem_pool_size` is `none` when `LANCE_MEM_POOL_SIZE` is unset,
`some none` when set to a string that fails `u64` parsing (a warning is
logged and the default used), and `some (some v)` when set and parsing to
`v`. `lance_bypass_spilling` records presence of `LANCE_BYPASS_SPILLING`
(its value is irrelevant in the source). -/
structure EnvVars where
  lance_mem_pool_size : Option (Option Nat)
  lance_bypass_spilling : Bool

def DEFAULT_LANCE_MEM_POOL_SIZE : Nat := 100 * 1024 * 1024

/-- `LanceExecutionOptions`. The `execution_stats_callback` field influences
none of the verified operations and is omitted from the embedding. -/
structure LanceExecutionOptions where
  use_spilling : Bool := false
  mem_pool_size : Option Nat := none
  batch_size : Option Nat := none
  target_partition : Option Nat := none

/-- `LanceExecutionOptions::mem_pool_size()`: the explicit value if any, else
the environment override (malformed values fall back to the default), else
`DEFAULT_LANCE_MEM_POOL_SIZE`. (Named `_resolved` because the Rust method
shares its name with the struct field.) -/
def LanceExecutionOptions.mem_pool_size_resolved (o : LanceExecutionOptions)
    (env : EnvVars) : Nat :=
  match o.mem_pool_size with
  | some v => v
  | none =>
    match env.lance_mem_pool_size with
    | some (some v) => v
    | some none => DEFAULT_LANCE_MEM_POOL_SIZE
    | none => DEFAULT_LANCE_MEM_POOL_SIZE

/-- `LanceExecutionOptions::use_spilling()`: `false` unless requested, and a
present `LANCE_BYPASS_SPILLING` variable forces `false`. -/
def LanceExecutionOptions.use_spilling_resolved (o : LanceExecutionOptions)
    (env : EnvVars) : Bool :=
  if !o.use_spilling then false
  else if env.lance_bypass_spilling then false
  else true

/-- Identity of a `SessionContext` handle: one of the two process-wide
`lazy_static` singletons (keyed by the resolved spill flag) or a freshly
built instance. Fresh contexts carry an allocation counter, modelling Rust
object identity: every `new_session_context` call builds a distinct object,
while cloning a `lazy_static` singleton shares the same object. -/
inductive SessionContextId where
  | default_ctx : SessionContextId
  | default_spill_ctx : SessionContextId
  | fresh : Nat → SessionContextId
deriving DecidableEq

/-- `new_session_context(options)`: always constructs a brand-new context.
The configuration it applies (target partitions, spill pool, pool size) does
not affect object identity, which is what the caching claims are about, so
the model tracks identity only: the allocation counter advances. -/
def new_session_context (_options : LanceExecutionOptions) (_env : EnvVars)
    (counter : Nat) : SessionContextId × Nat :=
  (SessionContextId.fresh counter, counter + 1)

/-- `get_session_context(options)`: when the options resolve to the default
memory-pool size and carry no explicit target-partition count, return the
cached singleton keyed by the resolved spill flag; otherwise delegate to
`new_session_context`. -/
def get_session_context (options : LanceExecutionOptions) (env : EnvVars)
    (counter : Nat) : SessionContextId × Nat :=
  if options.mem_pool_size_resolved env = DEFAULT_LANCE_MEM_POOL_SIZE ∧
      options.target_partition = none then
    (if options.use_spilling_resolved env then
      SessionContextId.default_spill_ctx
    else SessionContextId.default_ctx, counter)
  else new_session_context options env counter

/-- The six named counters a node's `MetricsSet` may expose; a `none` field
models `find_count` returning `None` for that name. -/
structure MetricsSet where
  iops : Option Nat
  requests : Option Nat
  bytes_read : Option Nat
  indices_loaded : Option Nat
  parts_loaded : Option Nat
  index_comparisons : Option Nat
deriving DecidableEq

/-- An execution-plan node: `node.metrics()` may return `None`, and
`node.children()` is a list of child nodes. Plan trees are finite and
acyclic by construction (they are inductive values). -/
inductive PlanNode where
  | mk : Option MetricsSet → List PlanNode → PlanNode

def PlanNode.metrics : PlanNode → Option MetricsSet
  | .mk m _ => m

def PlanNode.children : PlanNode → List PlanNode
  | .mk _ cs => cs

/-- `ExecutionSummaryCounts`, `#[derive(Default)]` meaning all zeros. -/
structure ExecutionSummaryCounts where
  iops : Nat := 0
  requests : Nat := 0
  bytes_read : Nat := 0
  indices_loaded : Nat := 0
  parts_loaded : Nat := 0
  index_comparisons : Nat := 0
deriving DecidableEq

/-- The metric-reading block of `visit_node`: when the node has a
`MetricsSet`, each present counter is added to the running total
(`unwrap_or(0)` for an absent counter); a node without metrics adds
nothing. -/
def addNodeMetrics (counts : ExecutionSummaryCounts) (m : Option MetricsSet) :
    ExecutionSummaryCounts :=
  match m with
  | none => counts
  | some ms =>
    { iops := counts.iops + ms.iops.getD 0,
      requests := counts.requests + ms.requests.getD 0,
      bytes_read := counts.bytes_read + ms.bytes_read.getD 0,
      indices_loaded := counts.indices_loaded + ms.indices_loaded.getD 0,
      parts_loaded := counts.parts_loaded + ms.parts_loaded.getD 0,
      index_comparisons :=
        counts.index_comparisons + ms.index_comparisons.getD 0 }

mutual
/-- `visit_node(node, counts)`: add the node's own counters into the running
total, then recurse depth-first, pre-order, into every child. -/
def visit_node : PlanNode → ExecutionSummaryCounts → ExecutionSummaryCounts
  | .mk m cs, counts => visit_children cs (addNodeMetrics counts m)

/-- The `for child in node.children()` loop inside `visit_node`. -/
def visit_children :
    List PlanNode → ExecutionSummaryCounts → ExecutionSummaryCounts
  | [], counts => counts
  | n :: ns, counts => visit_children ns (visit_node n counts)
end

mutual
/-- Depth-first pre-order listing of the nodes of a plan tree. -/
def preorder : PlanNode → List PlanNode
  | .mk m cs => PlanNode.mk m cs :: preorderList cs

/-- Pre-order listing of a forest, left to right. -/
def preorderList : List PlanNode → List PlanNode
  | [] => []
  | n :: ns => preorder n ++ preorderList ns
end

/-- One `visit_node` accumulation step, as a fold step over the pre-order
node list. -/
def visitStep (counts : ExecutionSummaryCounts) (n : PlanNode) :
    ExecutionSummaryCounts :=
  addNodeMetrics counts n.metrics

/-- The value a single node contributes to one counter: its metric if the
node has a `MetricsSet` containing that counter, otherwise 0. -/
def metricCount (sel : MetricsSet → Option Nat) (n : PlanNode) : Nat :=
  (n.metrics.bind sel).getD 0

/-- The drain loop of `analyze_plan`:
`while (stream.next().await).is_some()` consumes every stream item, `Ok`
batches and `Err` items alike, discarding each. -/
def drain_stream {β : Type u} : List (Except String β) → Unit
  | [] => ()
  | _ :: rest => drain_stream rest

/-- `analyze_plan(plan, options)`, modelled at the stream level:
`exec_result` is the outcome of the synchronous `analyze.execute(0, ctx)`
call — an `Err` there is wrapped as `Error::io` with the original message
appended to a fixed prefix. On `Ok` the stream (a finite list of items, each
an `Ok` batch or an `Err` execution failure) is fully drained and the
formatted report is returned. -/
def analyze_plan {β : Type u}
    (exec_result : Except String (List (Except String β)))
    (report : String) : Except String String :=
  match exec_result with
  | .error err => .error ("Failed to execute analyze plan: " ++ err)
  | .ok stream =>
    let _drained := drain_stream stream
    .ok report

/-! ## General list lemmas -/

theorem mapIdx_fun_id {α : Type u} (l : List α) : l.mapIdx (fun _ a => a) = l := by
  induction l with
  | nil => rfl
  | cons a l ih => simp only [List.mapIdx_cons]; exact congrArg (a :: ·) ih

theorem mapIdx_mapIdx {α : Type u} {β γ : Type v} (l : List α) :
    ∀ (f : Nat → α → β) (g : Nat → β → γ),
      (l.mapIdx f).mapIdx g = l.mapIdx (fun i a => g i (f i a)) := by
  induction l with
  | nil => intro f g; rfl
  | cons a l ih =>
      intro f g
      simp only [List.mapIdx_cons]
      exact congrArg _ (ih _ _)

theorem mapIdx_replicate_nil {α : Type u} (m : Nat) (g : Nat → List α) :
    (List.replicate m ([] : List α)).mapIdx (fun i buf => buf ++ g i) =
      (List.range m).map g := by
  induction m generalizing g with
  | zero => rfl
  | succ m ih =>
      rw [List.replicate_succ, List.mapIdx_cons, List.range_succ_eq_map,
        List.map_cons, List.map_map]
      simp only [List.nil_append]
      exact congrArg _ (ih (fun i => g (i + 1)))

theorem flatMap_congr' {α : Type u} {β : Type v} {l : List α} {f g : α → List β}
    (h : ∀ a ∈ l, f a = g a) : l.flatMap f = l.flatMap g := by
  simp only [List.flatMap_def]
  rw [List.map_congr_left h]

/-- Tiling: consecutive slices of width `s` rebuild a list of length `m * s`. -/
theorem flatMap_range_slices {α : Type u} (s : Nat) (m : Nat) (l : List α)
    (hl : l.length = m * s) :
    (List.range m).flatMap (fun j => (l.drop (j * s)).take s) = l := by
  induction m generalizing l with
  | zero =>
      have : l = [] := List.length_eq_zero.mp (by simpa using hl)
      subst this
      rfl
  | succ m ih =>
      rw [List.range_succ_eq_map, List.flatMap_cons, List.flatMap_map]
      have h1 : ∀ j ∈ List.range m,
          (l.drop (Nat.succ j * s)).take s =
            ((l.drop s).drop (j * s)).take s := by
        intro j _
        rw [List.drop_drop]
        have : Nat.succ j * s = s + j * s := by
          rw [Nat.succ_mul, Nat.add_comm]
        rw [this]
      rw [flatMap_congr' h1]
      rw [ih (l.drop s) (by rw [List.length_drop, hl]; ring_nf; omega)]
      simp [List.take_append_drop]

/-- Indexing into the flattening of uniformly sized lists. -/
theorem flatten_drop_take_uniform {α : Type u} (s : Nat) (L : List (List α)) (v : Nat)
    (hL : ∀ c ∈ L, c.length = s) (hv : v < L.length) :
    (L.flatten.drop (v * s)).take s = L.getD v [] := by
  induction L generalizing v with
  | nil => simp at hv
  | cons c L ih =>
      have hc : c.length = s := hL c (List.mem_cons_self c L)
      cases v with
      | zero =>
          simp only [Nat.zero_mul, List.drop_zero, List.flatten_cons,
            List.getD_cons_zero]
          rw [← hc, List.take_left]
      | succ v =>
          rw [List.flatten_cons, List.getD_cons_succ]
          have harith : (v + 1) * s = c.length + v * s := by rw [hc]; ring
          rw [harith, List.drop_append]
          exact ih v (fun x hx => hL x (List.mem_cons_of_mem _ hx))
            (Nat.lt_of_succ_lt_succ hv)

/-- Closed form of `chunks` under exact divisibility. -/
theorem chunks_eq_map_range {α : Type u} (dim : Nat) (hdim : 0 < dim) (N : Nat)
    (l : List α) (hl : l.length = N * dim) :
    chunks dim l = (List.range N).map (fun v => (l.drop (v * dim)).take dim) := by
  induction N generalizing l with
  | zero =>
      have hnil : l = [] := List.length_eq_zero.mp (by simpa using hl)
      subst hnil
      obtain ⟨d, rfl⟩ : ∃ d, dim = d + 1 := ⟨dim - 1, by omega⟩
      simp [chunks]
  | succ N ih =>
      obtain ⟨d, rfl⟩ : ∃ d, dim = d + 1 := ⟨dim - 1, by omega⟩
      cases l with
      | nil =>
          exfalso
          have h0 : 0 = (N + 1) * (d + 1) := hl
          exact Nat.mul_ne_zero (Nat.succ_ne_zero N) (Nat.succ_ne_zero d) h0.symm
      | cons a as =>
          rw [List.range_succ_eq_map, List.map_cons, List.map_map]
          simp only [chunks]
          have hhead : (a :: as).take (d + 1) =
              ((a :: as).drop (0 * (d + 1))).take (d + 1) := by
            simp
          rw [hhead]
          have htail : chunks (d + 1) ((a :: as).drop (d + 1)) =
              (List.range N).map
                (fun v => (((a :: as).drop (d + 1)).drop (v * (d + 1))).take (d + 1)) := by
            apply ih
            rw [List.length_drop, hl, Nat.succ_mul]
            omega
          rw [htail]
          congr 1
          apply List.map_congr_left
          intro v _
          simp only [Function.comp]
          rw [List.drop_drop]
          have : d + 1 + v * (d + 1) = Nat.succ v * (d + 1) := by
            rw [Nat.succ_mul, Nat.add_comm]
          rw [this]

/-- Unrolling the source's chunk-by-chunk `extend_from_slice` loop: after the
fold, buffer `i` is its initial value followed by the concatenation of
`slice i` over all chunks, in order. -/
theorem foldl_mapIdx_append {α : Type u} (slice : Nat → List α → List α)
    (cs : List (List α)) (acc : List (List α)) :
    cs.foldl
      (fun subarrays vec => subarrays.mapIdx (fun i sub => sub ++ slice i vec))
      acc =
      acc.mapIdx (fun i sub => sub ++ cs.flatMap (fun vec => slice i vec)) := by
  induction cs generalizing acc with
  | nil =>
      simp only [List.foldl_nil, List.flatMap_nil, List.append_nil]
      exact (mapIdx_fun_id acc).symm
  | cons vec cs ih =>
      rw [List.foldl_cons, ih, mapIdx_mapIdx]
      simp only [List.flatMap_cons, List.append_assoc]

/-- Closed form of the `Ok` branch of `divide_to_subvectors`: output buffer `j`
is the concatenation, over the `N` vectors in order, of each vector's `j`-th
contiguous slice of length `dim / m`. -/
theorem divide_to_subvectors_buffers {α : Type u} (fsl : FixedSizeListArray α)
    (N m : Nat) (hm : 0 < m) (hdim : 0 < fsl.value_length)
    (hdiv : fsl.value_length % m = 0)
    (hlen : fsl.values.length = N * fsl.value_length) :
    divide_to_subvectors fsl m =
      DivideResult.ok ((List.range m).map (fun j =>
        (List.range N).flatMap (fun v =>
          (fsl.values.drop
            (v * fsl.value_length + j * (fsl.value_length / m))).take
            (fsl.value_length / m)))) := by
  have hm' : m ≠ 0 := Nat.pos_iff_ne_zero.mp hm
  have hdim' : fsl.value_length ≠ 0 := Nat.pos_iff_ne_zero.mp hdim
  have hsub : ∀ i s : Nat, (i + 1) * s - i * s = s := by
    intro i s
    rw [Nat.succ_mul, Nat.add_sub_cancel_left]
  unfold divide_to_subvectors
  rw [if_neg hm', if_neg (not_not_intro hdiv), if_neg hdim']
  simp only [hsub]
  rw [foldl_mapIdx_append
    (fun i vec => (vec.drop (i * (fsl.value_length / m))).take
      (fsl.value_length / m))
    (chunks fsl.value_length fsl.values) (List.replicate m [])]
  rw [mapIdx_replicate_nil m (fun i =>
    (chunks fsl.value_length fsl.values).flatMap (fun vec =>
      (vec.drop (i * (fsl.value_length / m))).take (fsl.value_length / m)))]
  congr 1
  apply List.map_congr_left
  intro j hj
  rw [List.mem_range] at hj
  rw [chunks_eq_map_range fsl.value_length hdim N fsl.values hlen,
    List.flatMap_map]
  apply flatMap_congr'
  intro v hv
  rw [List.mem_range] at hv
  -- slice `j` of the `v`-th chunk, re-expressed on the flat buffer
  rw [List.drop_take, List.take_take, List.drop_drop]
  have hdm : fsl.value_length / m * m = fsl.value_length :=
    Nat.div_mul_cancel (Nat.dvd_of_mod_eq_zero hdiv)
  have hjs : j * (fsl.value_length / m) + (fsl.value_length / m) ≤
      fsl.value_length := by
    have h1 := Nat.mul_le_mul_right (fsl.value_length / m) (Nat.succ_le_of_lt hj)
    rw [Nat.succ_mul] at h1
    calc j * (fsl.value_length / m) + fsl.value_length / m ≤
        m * (fsl.value_length / m) := h1
      _ = fsl.value_length := by rw [Nat.mul_comm]; exact hdm
  have hmin : min (fsl.value_length / m)
      (fsl.value_length - j * (fsl.value_length / m)) =
      fsl.value_length / m := by
    apply Nat.min_eq_left
    omega
  rw [hmin]

/-- Extracting a sub-slice of an extracted slice of a flat buffer. -/
theorem slice_of_slice {α : Type u} (l : List α) (off dim a s : Nat)
    (h : a + s ≤ dim) :
    (((l.drop off).take dim).drop a).take s = (l.drop (off + a)).take s := by
  rw [List.drop_take, List.take_take, List.drop_drop]
  rw [Nat.min_eq_left (by omega)]

/-- C1: for a `FixedSizeListArray` of `N` vectors of dimension `D` with
`D % m = 0` (positive `D` and `m`, since `m = 0` or `D = 0` panic in the
source), `divide_to_subvectors` returns `Ok` with exactly `m` buffers of
length `N * (D / m)`; buffer `j` is the concatenation over the `N` vectors in
order of each vector's `j`-th contiguous slice of length `D / m`; and
interleaving the buffers back (vector `v` regained as the concatenation over
`j` of buffer `j`'s `v`-th slice) reconstructs the original flat values. -/
theorem divide_to_subvectors_correct {α : Type u} (fsl : FixedSizeListArray α)
    (N m : Nat) (hm : 0 < m) (hdim : 0 < fsl.value_length)
    (hdiv : fsl.value_length % m = 0)
    (hlen : fsl.values.length = N * fsl.value_length) :
    ∃ bufs : List (List α),
      divide_to_subvectors fsl m = DivideResult.ok bufs ∧
      bufs.length = m ∧
      (∀ buf ∈ bufs, buf.length = N * (fsl.value_length / m)) ∧
      (∀ j, j < m → bufs.getD j [] =
        (List.range N).flatMap (fun v =>
          (fsl.values.drop
            (v * fsl.value_length + j * (fsl.value_length / m))).take
            (fsl.value_length / m))) ∧
      (List.range N).flatMap (fun v =>
        bufs.flatMap (fun buf =>
          (buf.drop (v * (fsl.value_length / m))).take
            (fsl.value_length / m))) = fsl.values := by
  obtain ⟨vals, D⟩ := fsl
  simp only at hdim hdiv hlen ⊢
  have hdm : D / m * m = D := Nat.div_mul_cancel (Nat.dvd_of_mod_eq_zero hdiv)
  have hdm' : m * (D / m) = D := by rw [Nat.mul_comm]; exact hdm
  -- per-slice length is exactly `D / m`
  have hslice : ∀ v j, v < N → j < m →
      ((vals.drop (v * D + j * (D / m))).take (D / m)).length = D / m := by
    intro v j hv hj
    have h1 : j * (D / m) + D / m ≤ D := by
      have h := Nat.mul_le_mul_right (D / m) (Nat.succ_le_of_lt hj)
      rw [Nat.succ_mul, hdm'] at h
      exact h
    have h2 : v * D + D ≤ N * D := by
      have h := Nat.mul_le_mul_right D (Nat.succ_le_of_lt hv)
      rw [Nat.succ_mul] at h
      exact h
    rw [List.length_take, List.length_drop, hlen]
    set A := v * D
    set B := j * (D / m)
    set C := N * D
    omega
  refine ⟨_, divide_to_subvectors_buffers ⟨vals, D⟩ N m hm hdim hdiv hlen,
    ?_, ?_, ?_, ?_⟩
  · simp
  · intro buf hbuf
    rw [List.mem_map] at hbuf
    obtain ⟨j, hj, rfl⟩ := hbuf
    rw [List.mem_range] at hj
    rw [List.length_flatMap]
    have hc : List.map
        (List.length ∘ fun v =>
          (vals.drop (v * D + j * (D / m))).take (D / m))
        (List.range N) = List.replicate N (D / m) := by
      rw [List.eq_replicate_iff]
      constructor
      · simp
      · intro b hb
        rw [List.mem_map] at hb
        obtain ⟨v, hv, rfl⟩ := hb
        rw [List.mem_range] at hv
        exact hslice v j hv hj
    rw [hc, List.sum_replicate, smul_eq_mul]
  · intro j hj
    have hjlen : j < ((List.range m).map (fun j =>
        (List.range N).flatMap (fun v =>
          (vals.drop (v * D + j * (D / m))).take (D / m)))).length := by
      simpa using hj
    rw [List.getD_eq_getElem _ _ hjlen, List.getElem_map, List.getElem_range]
  · -- round-trip: vector `v` is recovered slice by slice
    have hstep1 : ∀ v ∈ List.range N,
        ((List.range m).map (fun j =>
          (List.range N).flatMap (fun v' =>
            (vals.drop (v' * D + j * (D / m))).take (D / m)))).flatMap
          (fun buf => (buf.drop (v * (D / m))).take (D / m)) =
        (List.range m).flatMap (fun j =>
          (vals.drop (v * D + j * (D / m))).take (D / m)) := by
      intro v hv
      rw [List.mem_range] at hv
      rw [List.flatMap_map]
      apply flatMap_congr'
      intro j hj
      rw [List.mem_range] at hj
      rw [List.flatMap_def]
      rw [flatten_drop_take_uniform (D / m)
        (List.map (fun v' => (vals.drop (v' * D + j * (D / m))).take (D / m))
          (List.range N)) v
        (by
          intro c hc
          rw [List.mem_map] at hc
          obtain ⟨v', hv', rfl⟩ := hc
          rw [List.mem_range] at hv'
          exact hslice v' j hv' hj)
        (by simpa using hv)]
      have hvlen : v < (List.map (fun v' =>
          (vals.drop (v' * D + j * (D / m))).take (D / m))
            (List.range N)).length := by simpa using hv
      rw [List.getD_eq_getElem _ _ hvlen, List.getElem_map, List.getElem_range]
    rw [flatMap_congr' hstep1]
    have hstep2 : ∀ v ∈ List.range N,
        (List.range m).flatMap (fun j =>
          (vals.drop (v * D + j * (D / m))).take (D / m)) =
        (vals.drop (v * D)).take D := by
      intro v hv
      rw [List.mem_range] at hv
      have hchunk_len : ((vals.drop (v * D)).take D).length = m * (D / m) := by
        have h2 : v * D + D ≤ N * D := by
          have h := Nat.mul_le_mul_right D (Nat.succ_le_of_lt hv)
          rw [Nat.succ_mul] at h
          exact h
        rw [List.length_take, List.length_drop, hlen, hdm']
        set A := v * D
        set C := N * D
        omega
      have := flatMap_range_slices (D / m) m ((vals.drop (v * D)).take D)
        hchunk_len
      rw [← this]
      apply flatMap_congr'
      intro j hj
      rw [List.mem_range] at hj
      have h1 : j * (D / m) + D / m ≤ D := by
        have h := Nat.mul_le_mul_right (D / m) (Nat.succ_le_of_lt hj)
        rw [Nat.succ_mul, hdm'] at h
        exact h
      exact (slice_of_slice vals (v * D) D (j * (D / m)) (D / m) h1).symm
    rw [flatMap_congr' hstep2]
    exact flatMap_range_slices D N vals hlen

/-- Witness for C1: 2 vectors of dimension 4 split into `m = 2` sub-vectors. -/
theorem divide_to_subvectors_correct_witness :
    ∃ bufs : List (List Nat),
      divide_to_subvectors ⟨List.range 8, 4⟩ 2 = DivideResult.ok bufs ∧
      bufs.length = 2 ∧
      (∀ buf ∈ bufs, buf.length = 2 * (4 / 2)) ∧
      (∀ j, j < 2 → bufs.getD j [] =
        (List.range 2).flatMap (fun v =>
          ((List.range 8).drop (v * 4 + j * (4 / 2))).take (4 / 2))) ∧
      (List.range 2).flatMap (fun v =>
        bufs.flatMap (fun buf => (buf.drop (v * (4 / 2))).take (4 / 2))) =
        List.range 8 :=
  divide_to_subvectors_correct ⟨List.range 8, 4⟩ 2 2 (by decide) (by decide)
    (by decide) (by decide)

/-- C5: when the dimension is not divisible by `m` (and `m > 0`),
`divide_to_subvectors` returns the invalid-input error; its message carries
both the dimension and `m`, and no `Ok` buffers are produced. -/
theorem divide_to_subvectors_invalid_input {α : Type u}
    (fsl : FixedSizeListArray α) (m : Nat) (hm : 0 < m)
    (hdiv : fsl.value_length % m ≠ 0) :
    divide_to_subvectors fsl m =
      DivideResult.invalid_input
        ("num_sub_vectors must divide vector dimension " ++
          toString fsl.value_length ++ ", but got " ++ toString m) ∧
    (∃ s₁ s₂ : String,
      ("num_sub_vectors must divide vector dimension " ++
          toString fsl.value_length ++ ", but got " ++ toString m) =
        s₁ ++ toString fsl.value_length ++ s₂ ++ toString m) ∧
    (∀ bufs : List (List α), divide_to_subvectors fsl m ≠ DivideResult.ok bufs) := by
  have hm' : m ≠ 0 := Nat.pos_iff_ne_zero.mp hm
  have heq : divide_to_subvectors fsl m =
      DivideResult.invalid_input
        ("num_sub_vectors must divide vector dimension " ++
          toString fsl.value_length ++ ", but got " ++ toString m) := by
    unfold divide_to_subvectors
    rw [if_neg hm', if_pos hdiv]
  refine ⟨heq, ⟨"num_sub_vectors must divide vector dimension ", ", but got ", rfl⟩,
    ?_⟩
  intro bufs hok
  rw [heq] at hok
  exact DivideResult.noConfusion hok

/-- Witness for C5: dimension 5, `m = 2`. -/
theorem divide_to_subvectors_invalid_input_witness :
    divide_to_subvectors (⟨[], 5⟩ : FixedSizeListArray Nat) 2 =
      DivideResult.invalid_input
        ("num_sub_vectors must divide vector dimension " ++ toString 5 ++
          ", but got " ++ toString 2) ∧
    (∃ s₁ s₂ : String,
      ("num_sub_vectors must divide vector dimension " ++ toString 5 ++
          ", but got " ++ toString 2) =
        s₁ ++ toString 5 ++ s₂ ++ toString 2) ∧
    (∀ bufs : List (List Nat),
      divide_to_subvectors (⟨[], 5⟩ : FixedSizeListArray Nat) 2 ≠
        DivideResult.ok bufs) :=
  divide_to_subvectors_invalid_input ⟨[], 5⟩ 2 (by decide) (by decide)

/-- C10: with `m = 0` the source evaluates `dim % 0`, a remainder by zero,
which panics before the invalid-input branch can be taken; the embedding makes
this an explicit `panic` result distinct from `invalid_input` and `ok`. -/
theorem divide_to_subvectors_m_zero_panics {α : Type u}
    (fsl : FixedSizeListArray α) (hne : fsl.values ≠ []) :
    divide_to_subvectors fsl 0 = DivideResult.panic ∧
    (∀ msg, divide_to_subvectors fsl 0 ≠ DivideResult.invalid_input msg) ∧
    (∀ bufs : List (List α), divide_to_subvectors fsl 0 ≠ DivideResult.ok bufs) := by
  have heq : divide_to_subvectors fsl 0 = DivideResult.panic := by
    unfold divide_to_subvectors
    rw [if_pos rfl]
  refine ⟨heq, ?_, ?_⟩
  · intro msg h
    rw [heq] at h
    exact DivideResult.noConfusion h
  · intro bufs h
    rw [heq] at h
    exact DivideResult.noConfusion h

/-- Witness for C10: a non-empty one-vector input with `m = 0`. -/
theorem divide_to_subvectors_m_zero_panics_witness :
    divide_to_subvectors (⟨[7, 8, 9], 3⟩ : FixedSizeListArray Nat) 0 =
      DivideResult.panic ∧
    (∀ msg, divide_to_subvectors (⟨[7, 8, 9], 3⟩ : FixedSizeListArray Nat) 0 ≠
      DivideResult.invalid_input msg) ∧
    (∀ bufs : List (List Nat),
      divide_to_subvectors (⟨[7, 8, 9], 3⟩ : FixedSizeListArray Nat) 0 ≠
        DivideResult.ok bufs) :=
  divide_to_subvectors_m_zero_panics ⟨[7, 8, 9], 3⟩ (by decide)

/-- C2: for a codebook of length
`num_sub_vectors * 2 ^ num_bits * (dimension / num_sub_vectors)`,
`get_sub_vector_centroids` returns the contiguous slice of length
`2 ^ num_bits * (dimension / num_sub_vectors)` starting at offset
`sub_vector_idx * (2 ^ num_bits * (dimension / num_sub_vectors))`, and the
slices over all `sub_vector_idx < num_sub_vectors` tile the codebook exactly,
with no gaps and no overlaps. -/
theorem get_sub_vector_centroids_correct {α : Type u} (num_bits : Nat)
    (codebook : List α) (dimension num_sub_vectors : Nat)
    (hdiv : dimension % num_sub_vectors = 0)
    (hlen : codebook.length =
      num_sub_vectors * (2 ^ num_bits * (dimension / num_sub_vectors))) :
    (∀ sub_vector_idx, sub_vector_idx < num_sub_vectors →
      get_sub_vector_centroids num_bits codebook dimension num_sub_vectors
          sub_vector_idx =
        (codebook.drop
          (sub_vector_idx *
            (2 ^ num_bits * (dimension / num_sub_vectors)))).take
          (2 ^ num_bits * (dimension / num_sub_vectors)) ∧
      (get_sub_vector_centroids num_bits codebook dimension num_sub_vectors
          sub_vector_idx).length =
        2 ^ num_bits * (dimension / num_sub_vectors)) ∧
    (List.range num_sub_vectors).flatMap (fun sub_vector_idx =>
      get_sub_vector_centroids num_bits codebook dimension num_sub_vectors
        sub_vector_idx) = codebook := by
  have hslice : ∀ idx : Nat,
      get_sub_vector_centroids num_bits codebook dimension num_sub_vectors idx =
        (codebook.drop
          (idx * (2 ^ num_bits * (dimension / num_sub_vectors)))).take
          (2 ^ num_bits * (dimension / num_sub_vectors)) := by
    intro idx
    simp only [get_sub_vector_centroids]
    have harith : (idx + 1) * 2 ^ num_bits * (dimension / num_sub_vectors) -
        idx * 2 ^ num_bits * (dimension / num_sub_vectors) =
        2 ^ num_bits * (dimension / num_sub_vectors) := by
      rw [Nat.succ_mul, Nat.add_mul, Nat.add_sub_cancel_left]
    have hoff : idx * 2 ^ num_bits * (dimension / num_sub_vectors) =
        idx * (2 ^ num_bits * (dimension / num_sub_vectors)) :=
      Nat.mul_assoc idx (2 ^ num_bits) (dimension / num_sub_vectors)
    rw [harith, hoff]
  constructor
  · intro idx hidx
    refine ⟨hslice idx, ?_⟩
    rw [hslice idx, List.length_take, List.length_drop, hlen]
    have h1 : idx * (2 ^ num_bits * (dimension / num_sub_vectors)) +
        2 ^ num_bits * (dimension / num_sub_vectors) ≤
        num_sub_vectors * (2 ^ num_bits * (dimension / num_sub_vectors)) := by
      have h := Nat.mul_le_mul_right
        (2 ^ num_bits * (dimension / num_sub_vectors))
        (Nat.succ_le_of_lt hidx)
      rw [Nat.succ_mul] at h
      exact h
    set A := idx * (2 ^ num_bits * (dimension / num_sub_vectors))
    set S := 2 ^ num_bits * (dimension / num_sub_vectors)
    set C := num_sub_vectors * (2 ^ num_bits * (dimension / num_sub_vectors))
    omega
  · have hcongr : ∀ idx ∈ List.range num_sub_vectors,
        get_sub_vector_centroids num_bits codebook dimension num_sub_vectors
            idx =
          (codebook.drop
            (idx * (2 ^ num_bits * (dimension / num_sub_vectors)))).take
            (2 ^ num_bits * (dimension / num_sub_vectors)) :=
      fun idx _ => hslice idx
    rw [flatMap_congr' hcongr]
    exact flatMap_range_slices (2 ^ num_bits * (dimension / num_sub_vectors))
      num_sub_vectors codebook hlen

/-- Witness for C2: 1-bit PQ, dimension 4, two sub-vectors, codebook of
length `2 * (2 * 2) = 8`. -/
theorem get_sub_vector_centroids_correct_witness :
    (∀ sub_vector_idx, sub_vector_idx < 2 →
      get_sub_vector_centroids 1 (List.range 8) 4 2 sub_vector_idx =
        ((List.range 8).drop (sub_vector_idx * (2 ^ 1 * (4 / 2)))).take
          (2 ^ 1 * (4 / 2)) ∧
      (get_sub_vector_centroids 1 (List.range 8) 4 2 sub_vector_idx).length =
        2 ^ 1 * (4 / 2)) ∧
    (List.range 2).flatMap (fun sub_vector_idx =>
      get_sub_vector_centroids 1 (List.range 8) 4 2 sub_vector_idx) =
      List.range 8 :=
  get_sub_vector_centroids_correct 1 (List.range 8) 4 2 (by decide) (by decide)

/-- C3: the first `execute` on a fresh `OneShotExec` returns `Ok` carrying the
original stream — batches unchanged and in order — and consumes the slot; on
a consumed node every further `execute` call, whatever its partition
argument, returns the execution error saying the node has already been
executed and leaves the slot consumed. Hence the slot transitions
`Available → Consumed` at most once. -/
theorem oneShotExec_single_use {β : Type u} (s : List β) (p : Nat)
    (node : OneShotExec β) :
    OneShotExec.execute (OneShotExec.new s) p =
      (Except.ok s, ⟨none, 1⟩) ∧
    (node.stream = some s →
      OneShotExec.execute node p =
        (Except.ok s, ⟨none, node.partition_count⟩)) ∧
    (node.stream = none →
      OneShotExec.execute node p =
        (Except.error "OneShotExec has already been executed", node)) := by
  obtain ⟨st, pc⟩ := node
  refine ⟨rfl, ?_, ?_⟩
  · intro h
    simp only at h
    subst h
    rfl
  · intro h
    simp only at h
    subst h
    rfl

/-- Witness for C3: a two-batch stream, then a consumed node. -/
theorem oneShotExec_single_use_witness :
    OneShotExec.execute (OneShotExec.new ([10, 20] : List Nat)) 0 =
      (Except.ok [10, 20], ⟨none, 1⟩) ∧
    OneShotExec.execute (⟨none, 1⟩ : OneShotExec Nat) 7 =
      (Except.error "OneShotExec has already been executed", ⟨none, 1⟩) :=
  ⟨(oneShotExec_single_use [10, 20] 0 (⟨none, 1⟩ : OneShotExec Nat)).1,
   (oneShotExec_single_use [10, 20] 7 (⟨none, 1⟩ : OneShotExec Nat)).2.2 rfl⟩

/-- C4 counterexample: calling `execute` with partition `1 ≠ 0` on a fresh
`OneShotExec` does NOT fail — it returns the stream, because the source
ignores its partition argument (`_partition`). -/
theorem oneShotExec_nonzero_partition_counterexample :
    (1 : Nat) ≠ 0 ∧
    (OneShotExec.execute (OneShotExec.new ([42] : List Nat)) 1).1 =
      Except.ok [42] :=
  ⟨one_ne_zero, rfl⟩

/-- C4 amended: `OneShotExec::execute` ignores its partition argument
entirely — a fresh node returns the stream for every partition index, and two
calls on the same state with different partition indices behave identically.
The single-partition contract is only declared through the node's
`PlanProperties` (`partition_count = 1`), not enforced by `execute`. -/
theorem oneShotExec_execute_ignores_partition {β : Type u} (s : List β)
    (p q : Nat) (node : OneShotExec β) :
    (OneShotExec.execute (OneShotExec.new s) p).1 = Except.ok s ∧
    (OneShotExec.new s).partition_count = 1 ∧
    OneShotExec.execute node p = OneShotExec.execute node q :=
  ⟨rfl, rfl, rfl⟩

/-- C9: the effective spill flag equals
`requested AND NOT(bypass variable present)`; a present bypass variable
forces `false`, and an unrequested spill stays `false` whatever the
environment. -/
theorem use_spilling_resolved_spec (o : LanceExecutionOptions) (env : EnvVars) :
    o.use_spilling_resolved env =
      (o.use_spilling && !env.lance_bypass_spilling) ∧
    (env.lance_bypass_spilling = true → o.use_spilling_resolved env = false) ∧
    (o.use_spilling = false → o.use_spilling_resolved env = false) := by
  obtain ⟨us, mp, bs, tp⟩ := o
  obtain ⟨emp, ebp⟩ := env
  cases us <;> cases ebp <;>
    simp [LanceExecutionOptions.use_spilling_resolved]

/-- Witness for C9: bypass set beats a spill request; no request stays off. -/
theorem use_spilling_resolved_spec_witness :
    (⟨true, none, none, none⟩ :
        LanceExecutionOptions).use_spilling_resolved ⟨none, true⟩ = false ∧
    (⟨false, none, none, none⟩ :
        LanceExecutionOptions).use_spilling_resolved ⟨none, false⟩ = false :=
  ⟨(use_spilling_resolved_spec ⟨true, none, none, none⟩ ⟨none, true⟩).2.1 rfl,
   (use_spilling_resolved_spec ⟨false, none, none, none⟩ ⟨none, false⟩).2.2 rfl⟩

/-- C6: `get_session_context` hands out one of the two process-wide cached
contexts (keyed by the resolved spill flag) exactly when the options resolve
to the default pool size with no explicit target-partition count — so two
such calls are identity-equal; any other resolution builds a fresh, distinct
instance on every call. With default options and no environment override,
two calls share the cached instance. -/
theorem get_session_context_caching (o : LanceExecutionOptions) (env : EnvVars)
    (c c' : Nat) :
    ((o.mem_pool_size_resolved env = DEFAULT_LANCE_MEM_POOL_SIZE ∧
        o.target_partition = none) →
      get_session_context o env c =
        (if o.use_spilling_resolved env then
          SessionContextId.default_spill_ctx
        else SessionContextId.default_ctx, c) ∧
      (get_session_context o env c).1 = (get_session_context o env c').1) ∧
    ((o.mem_pool_size_resolved env ≠ DEFAULT_LANCE_MEM_POOL_SIZE ∨
        o.target_partition ≠ none) →
      get_session_context o env c = (SessionContextId.fresh c, c + 1) ∧
      (get_session_context o env c).1 ≠
        (get_session_context o env (get_session_context o env c).2).1) ∧
    (env.lance_mem_pool_size = none →
      (get_session_context ⟨false, none, none, none⟩ env c).1 =
        (get_session_context ⟨false, none, none, none⟩ env c').1) := by
  refine ⟨?_, ?_, ?_⟩
  · intro h
    constructor
    · unfold get_session_context
      rw [if_pos h]
    · unfold get_session_context
      rw [if_pos h, if_pos h]
  · intro h
    have hcond : ¬ (o.mem_pool_size_resolved env = DEFAULT_LANCE_MEM_POOL_SIZE ∧
        o.target_partition = none) := by
      rcases h with h | h
      · exact fun hc => h hc.1
      · exact fun hc => h hc.2
    constructor
    · unfold get_session_context new_session_context
      rw [if_neg hcond]
    · simp only [get_session_context, new_session_context, if_neg hcond]
      simp
  · intro h
    have hres : (⟨false, none, none, none⟩ :
        LanceExecutionOptions).mem_pool_size_resolved env =
        DEFAULT_LANCE_MEM_POOL_SIZE := by
      simp [LanceExecutionOptions.mem_pool_size_resolved, h]
    have hcond : (⟨false, none, none, none⟩ :
        LanceExecutionOptions).mem_pool_size_resolved env =
          DEFAULT_LANCE_MEM_POOL_SIZE ∧
        (⟨false, none, none, none⟩ :
          LanceExecutionOptions).target_partition = none := ⟨hres, rfl⟩
    unfold get_session_context
    rw [if_pos hcond, if_pos hcond]

/-- Witness for C6: default options share the cached context across calls;
an explicit target-partition count builds distinct fresh contexts. -/
theorem get_session_context_caching_witness :
    (get_session_context ⟨false, none, none, none⟩ ⟨none, false⟩ 3 =
      (if (⟨false, none, none, none⟩ :
          LanceExecutionOptions).use_spilling_resolved ⟨none, false⟩ then
        SessionContextId.default_spill_ctx
      else SessionContextId.default_ctx, 3) ∧
     (get_session_context ⟨false, none, none, none⟩ ⟨none, false⟩ 3).1 =
       (get_session_context ⟨false, none, none, none⟩ ⟨none, false⟩ 9).1) ∧
    (get_session_context ⟨false, none, none, some 4⟩ ⟨none, false⟩ 0 =
      (SessionContextId.fresh 0, 0 + 1) ∧
     (get_session_context ⟨false, none, none, some 4⟩ ⟨none, false⟩ 0).1 ≠
       (get_session_context ⟨false, none, none, some 4⟩ ⟨none, false⟩
         (get_session_context ⟨false, none, none, some 4⟩
           ⟨none, false⟩ 0).2).1) ∧
    (get_session_context ⟨false, none, none, none⟩ ⟨none, false⟩ 3).1 =
      (get_session_context ⟨false, none, none, none⟩ ⟨none, false⟩ 9).1 :=
  ⟨(get_session_context_caching ⟨false, none, none, none⟩ ⟨none, false⟩ 3 9).1
      ⟨rfl, rfl⟩,
   (get_session_context_caching ⟨false, none, none, some 4⟩
      ⟨none, false⟩ 0 0).2.1 (Or.inr (by simp)),
   (get_session_context_caching ⟨false, none, none, none⟩
      ⟨none, false⟩ 3 9).2.2 rfl⟩

/-- C8 counterexample: when `analyze.execute` succeeds but the stream yields
an execution failure during the eager drain, `analyze_plan` still returns the
formatted report — the drain loop discards `Err` items — instead of an
I/O-class error carrying the failure message. -/
theorem analyze_plan_drain_error_counterexample :
    analyze_plan (Except.ok [Except.error "stream failure"] :
        Except String (List (Except String Nat))) "plan report" =
      Except.ok "plan report" ∧
    analyze_plan (Except.ok [Except.error "stream failure"] :
        Except String (List (Except String Nat))) "plan report" ≠
      Except.error ("Failed to execute analyze plan: " ++ "stream failure") :=
  ⟨rfl, fun h => Except.noConfusion h⟩

/-- C8 amended: only a failure of the synchronous `analyze.execute(0, ctx)`
call is wrapped into an I/O-class error carrying the original message;
errors yielded as items during the eager drain are silently discarded and
the formatted report is returned. -/
theorem analyze_plan_error_wrapping {β : Type u} (err report : String)
    (items : List (Except String β)) :
    analyze_plan (Except.error err : Except String (List (Except String β)))
        report =
      Except.error ("Failed to execute analyze plan: " ++ err) ∧
    analyze_plan (Except.ok items) report = Except.ok report :=
  ⟨rfl, rfl⟩

/-- The mutual recursion of `visit_node`/`visit_children` is a fold of
`visitStep` over the depth-first pre-order node list (joint statement over a
size bound, proved by strong induction). -/
theorem visit_eq_foldl_aux (k : Nat) :
    (∀ n : PlanNode, sizeOf n ≤ k → ∀ counts,
      visit_node n counts = (preorder n).foldl visitStep counts) ∧
    (∀ cs : List PlanNode, sizeOf cs ≤ k → ∀ counts,
      visit_children cs counts = (preorderList cs).foldl visitStep counts) := by
  induction k using Nat.strong_induction_on with
  | _ k ih =>
    constructor
    · intro n hn counts
      obtain ⟨m, cs⟩ := n
      have hsz : sizeOf cs < k := by
        have h1 : sizeOf (PlanNode.mk m cs) = 1 + sizeOf m + sizeOf cs := by
          simp
        omega
      simp only [visit_node, preorder, List.foldl_cons]
      have hstep : visitStep counts (PlanNode.mk m cs) =
          addNodeMetrics counts m := rfl
      rw [hstep]
      exact (ih (sizeOf cs) hsz).2 cs le_rfl (addNodeMetrics counts m)
    · intro cs hcs counts
      cases cs with
      | nil => simp [visit_children, preorderList]
      | cons n ns =>
          have h1 : sizeOf (n :: ns) = 1 + sizeOf n + sizeOf ns := by simp
          have hszn : sizeOf n < k := by omega
          have hszns : sizeOf ns < k := by omega
          simp only [visit_children, preorderList, List.foldl_append]
          rw [(ih (sizeOf n) hszn).1 n le_rfl counts]
          exact (ih (sizeOf ns) hszns).2 ns le_rfl _

/-- `visit_node` is the pre-order fold of the accumulation step. -/
theorem visit_node_eq_foldl (n : PlanNode) (counts : ExecutionSummaryCounts) :
    visit_node n counts = (preorder n).foldl visitStep counts :=
  (visit_eq_foldl_aux (sizeOf n)).1 n le_rfl counts

/-- Generic accumulation along the fold: any counter projection that
`visitStep` advances by a per-node amount sums those amounts. -/
theorem foldl_visitStep_proj (proj : ExecutionSummaryCounts → Nat)
    (f : PlanNode → Nat)
    (h : ∀ c n, proj (visitStep c n) = proj c + f n) :
    ∀ (l : List PlanNode) (c : ExecutionSummaryCounts),
      proj (l.foldl visitStep c) = proj c + (l.map f).sum := by
  intro l
  induction l with
  | nil => intro c; simp
  | cons n ns ih =>
      intro c
      rw [List.foldl_cons, ih, h, List.map_cons, List.sum_cons]
      omega

theorem visitStep_iops (c : ExecutionSummaryCounts) (n : PlanNode) :
    (visitStep c n).iops = c.iops + metricCount MetricsSet.iops n := by
  obtain ⟨m, cs⟩ := n
  cases m with
  | none => simp [visitStep, addNodeMetrics, metricCount, PlanNode.metrics]
  | some ms => simp [visitStep, addNodeMetrics, metricCount, PlanNode.metrics]

theorem visitStep_requests (c : ExecutionSummaryCounts) (n : PlanNode) :
    (visitStep c n).requests = c.requests + metricCount MetricsSet.requests n := by
  obtain ⟨m, cs⟩ := n
  cases m with
  | none => simp [visitStep, addNodeMetrics, metricCount, PlanNode.metrics]
  | some ms => simp [visitStep, addNodeMetrics, metricCount, PlanNode.metrics]

theorem visitStep_bytes_read (c : ExecutionSummaryCounts) (n : PlanNode) :
    (visitStep c n).bytes_read =
      c.bytes_read + metricCount MetricsSet.bytes_read n := by
  obtain ⟨m, cs⟩ := n
  cases m with
  | none => simp [visitStep, addNodeMetrics, metricCount, PlanNode.metrics]
  | some ms => simp [visitStep, addNodeMetrics, metricCount, PlanNode.metrics]

theorem visitStep_indices_loaded (c : ExecutionSummaryCounts) (n : PlanNode) :
    (visitStep c n).indices_loaded =
      c.indices_loaded + metricCount MetricsSet.indices_loaded n := by
  obtain ⟨m, cs⟩ := n
  cases m with
  | none => simp [visitStep, addNodeMetrics, metricCount, PlanNode.metrics]
  | some ms => simp [visitStep, addNodeMetrics, metricCount, PlanNode.metrics]

theorem visitStep_parts_loaded (c : ExecutionSummaryCounts) (n : PlanNode) :
    (visitStep c n).parts_loaded =
      c.parts_loaded + metricCount MetricsSet.parts_loaded n := by
  obtain ⟨m, cs⟩ := n
  cases m with
  | none => simp [visitStep, addNodeMetrics, metricCount, PlanNode.metrics]
  | some ms => simp [visitStep, addNodeMetrics, metricCount, PlanNode.metrics]

theorem visitStep_index_comparisons (c : ExecutionSummaryCounts)
    (n : PlanNode) :
    (visitStep c n).index_comparisons =
      c.index_comparisons + metricCount MetricsSet.index_comparisons n := by
  obtain ⟨m, cs⟩ := n
  cases m with
  | none => simp [visitStep, addNodeMetrics, metricCount, PlanNode.metrics]
  | some ms => simp [visitStep, addNodeMetrics, metricCount, PlanNode.metrics]

/-- C7: starting from zeroed counts (`Default`), `visit_node` visits the
nodes in depth-first pre-order (it is the fold of the accumulation step over
`preorder`), and each of the six named counters totals the sum of that
counter over all nodes of the tree, a node lacking metrics or lacking a
particular counter contributing 0. The concrete scenario — nodes A
(iops = 2) and B (iops = 3) under a metrics-less root, with C (iops = 5) a
child of B — aggregates to iops = 10. -/
theorem visit_node_aggregates (t : PlanNode) :
    (∀ counts, visit_node t counts = (preorder t).foldl visitStep counts) ∧
    (visit_node t ⟨0, 0, 0, 0, 0, 0⟩).iops =
      ((preorder t).map (metricCount MetricsSet.iops)).sum ∧
    (visit_node t ⟨0, 0, 0, 0, 0, 0⟩).requests =
      ((preorder t).map (metricCount MetricsSet.requests)).sum ∧
    (visit_node t ⟨0, 0, 0, 0, 0, 0⟩).bytes_read =
      ((preorder t).map (metricCount MetricsSet.bytes_read)).sum ∧
    (visit_node t ⟨0, 0, 0, 0, 0, 0⟩).indices_loaded =
      ((preorder t).map (metricCount MetricsSet.indices_loaded)).sum ∧
    (visit_node t ⟨0, 0, 0, 0, 0, 0⟩).parts_loaded =
      ((preorder t).map (metricCount MetricsSet.parts_loaded)).sum ∧
    (visit_node t ⟨0, 0, 0, 0, 0, 0⟩).index_comparisons =
      ((preorder t).map (metricCount MetricsSet.index_comparisons)).sum ∧
    (visit_node
        (PlanNode.mk none
          [PlanNode.mk (some ⟨some 2, none, none, none, none, none⟩) [],
           PlanNode.mk (some ⟨some 3, none, none, none, none, none⟩)
             [PlanNode.mk (some ⟨some 5, none, none, none, none, none⟩) []]])
        ⟨0, 0, 0, 0, 0, 0⟩).iops = 10 := by
  refine ⟨visit_node_eq_foldl t, ?_, ?_, ?_, ?_, ?_, ?_, ?_⟩
  · rw [visit_node_eq_foldl,
      foldl_visitStep_proj ExecutionSummaryCounts.iops
        (metricCount MetricsSet.iops) visitStep_iops]
    simp
  · rw [visit_node_eq_foldl,
      foldl_visitStep_proj ExecutionSummaryCounts.requests
        (metricCount MetricsSet.requests) visitStep_requests]
    simp
  · rw [visit_node_eq_foldl,
      foldl_visitStep_proj ExecutionSummaryCounts.bytes_read
        (metricCount MetricsSet.bytes_read) visitStep_bytes_read]
    simp
  · rw [visit_node_eq_foldl,
      foldl_visitStep_proj ExecutionSummaryCounts.indices_loaded
        (metricCount MetricsSet.indices_loaded) visitStep_indices_loaded]
    simp
  · rw [visit_node_eq_foldl,
      foldl_visitStep_proj ExecutionSummaryCounts.parts_loaded
        (metricCount MetricsSet.parts_loaded) visitStep_parts_loaded]
    simp
  · rw [visit_node_eq_foldl,
      foldl_visitStep_proj ExecutionSummaryCounts.index_comparisons
        (metricCount MetricsSet.index_comparisons)
        visitStep_index_comparisons]
    simp
  · simp [visit_node, visit_children, addNodeMetrics]
